import Mathlib

/-!
Shallow embedding of `astar_path` from `src/lib.rs` of the
`pathfinding_astar` crate, together with theorems checking the
natural-language specification against it.

Modelling choices:
* `HashMap<T, (Vec<(T, f32)>, f32)>` becomes an association list
  `Graph T S`; the code only ever uses the map through `get`,
  `contains_key` and `insert`, never iterating it, so lookup
  semantics is all that matters.
* `f32` distances/weights become `S`: every claim under study is
  about the comparison logic and list bookkeeping, which only use
  the ordered-field structure shared by `f32` (on non-NaN values)
  and `S`.
* The two `panic!` families are distinct error values:
  `invalidInput` for the missing start/end checks, `dataIntegrity`
  for a missing node/neighbour lookup during the search.
* The unbounded `while` loop is run on explicit fuel; `fuelOut`
  records that the fuel ran out before the loop finished.
* `Vec::swap_remove(0)` and the stable ascending `sort_by` are
  modelled exactly (`swapRemoveHead`, insertion sort, which is the
  unique stable ascending sort, as is Rust's `sort_by`).
-/

set_option linter.unusedSectionVars false

namespace AStar

/-- Edge list of one node: `(neighbour_label, distance_to_neighbour)`. -/
abbrev Edges (T S : Type) := List (T × S)

/-- The `nodes` map: label ↦ (edge list, weight). -/
abbrev Graph (T S : Type) := List (T × (Edges T S × S))

/-- The `node_astar_scores` map: label ↦ best a-star score so far. -/
abbrev Scores (T S : Type) := List (T × S)

variable {T : Type} [DecidableEq T] {S : Type} [LinearOrder S] [Add S] [Zero S]

/-- Lookup in an association list; models `HashMap::get`. -/
def lookupNode : Graph T S → T → Option (Edges T S × S)
  | [], _ => none
  | (k, v) :: rest, l => if k = l then some v else lookupNode rest l

/-- Lookup in the score table; models `node_astar_scores.get`. -/
def scoresGet : Scores T S → T → Option S
  | [], _ => none
  | (k, v) :: rest, l => if k = l then some v else scoresGet rest l

/-- Insert-or-replace in the score table; models `node_astar_scores.insert`. -/
def scoresInsert : Scores T S → T → S → Scores T S
  | [], l, s => [(l, s)]
  | (k, v) :: rest, l, s =>
    if k = l then (l, s) :: rest else (k, v) :: scoresInsert rest l s

/-- A queue element `(current_node, a_star_score, vec_previous_nodes_traversed,
total_distance_traversed)`. -/
structure QEntry (T S : Type) where
  label : T
  score : S
  path : List T
  dist : S
deriving DecidableEq, Repr

/-- Models `queue.swap_remove(0)`: drop the head and move the LAST element
into its place. -/
def swapRemoveHead : List (QEntry T S) → List (QEntry T S)
  | [] => []
  | _ :: rest =>
    match rest.getLast? with
    | none => []
    | some l => l :: rest.dropLast

/-- Result of `astar_path`: a found path, the explicit no-path value `None`,
one of the two panic families, or fuel exhaustion of the model. -/
inductive AResult (T : Type) where
  | path (p : List T)
  | noPath
  | invalidInput
  | dataIntegrity
  | fuelOut
deriving DecidableEq, Repr

/-- A-star score of a candidate (`a_star_score` in the source). -/
def a_star_score (distance : S) (weighting : S) : S :=
  distance + weighting

/-- The mutable scan over the queue (source lines 131–143): overwrite every
entry matching `n` whose stored score is ≥ `s`, and report whether a fresh
queue item is still required (`true` iff no entry was overwritten). -/
def upsertScan : List (QEntry T S) → T → S → List T → S → List (QEntry T S) × Bool
  | [], _, _, _, _ => ([], true)
  | q :: rest, n, s, p, d =>
    let r := upsertScan rest n s p d
    if q.label = n ∧ s ≤ q.score then
      (⟨n, s, p, d⟩ :: r.1, false)
    else
      (q :: r.1, r.2)

/-- The queue update for an accepted candidate (source lines 129–153):
overwrite a dominated matching entry in place, else push at the end. -/
def upsert_or_push (queue : List (QEntry T S)) (n : T) (s : S) (p : List T)
    (d : S) : List (QEntry T S) :=
  let r := upsertScan queue n s p d
  if r.2 then r.1 ++ [⟨n, s, p, d⟩] else r.1

/-- Processing of one neighbour `(n, distance)` of the popped entry `cur`
(source lines 109–166). `none` models the `panic!` when the neighbour is
absent from the `nodes` map. -/
def processNeighbour (g : Graph T S) (cur : QEntry T S) (scores : Scores T S)
    (queue : List (QEntry T S)) (nb : T × S) :
    Option (Scores T S × List (QEntry T S)) :=
  let distance_traveled := cur.dist + nb.2
  match lookupNode g nb.1 with
  | none => none
  | some (_, node_weight) =>
    let astar := a_star_score distance_traveled node_weight
    let prev := cur.path ++ [cur.label]
    match scoresGet scores nb.1 with
    | some recorded =>
      if astar ≤ recorded then
        some (scoresInsert scores nb.1 astar,
          upsert_or_push queue nb.1 astar prev distance_traveled)
      else
        some (scores, queue)
    | none =>
      some (scoresInsert scores nb.1 astar,
        queue ++ [⟨nb.1, astar, prev, distance_traveled⟩])

/-- Left-to-right processing of the whole neighbour list; a panic aborts. -/
def processNeighbours (g : Graph T S) (cur : QEntry T S) :
    Edges T S → Scores T S → List (QEntry T S) → Option (Scores T S × List (QEntry T S))
  | [], scores, queue => some (scores, queue)
  | nb :: rest, scores, queue =>
    match processNeighbour g cur scores queue nb with
    | none => none
    | some (scores', queue') => processNeighbours g cur rest scores' queue'

/-- Stable insertion of an entry after all entries of score ≤ its own. -/
def insertSorted (e : QEntry T S) : List (QEntry T S) → List (QEntry T S)
  | [] => [e]
  | x :: xs => if x.score ≤ e.score then x :: insertSorted e xs else e :: x :: xs

/-- Stable ascending sort by score; models
`queue.sort_by(|a, b| a.1.partial_cmp(&b.1).unwrap())` (a stable sort, and
the stable ascending reordering of a list is unique). -/
def sortByScore (queue : List (QEntry T S)) : List (QEntry T S) :=
  queue.foldl (fun acc e => insertSorted e acc) []

/-- Outcome of one iteration of the `while` loop: either the loop finishes
with a result, or it continues with a new score table and sorted queue. -/
inductive StepOut (T S : Type) where
  | halt (r : AResult T)
  | next (scores : Scores T S) (queue : List (QEntry T S))
deriving DecidableEq, Repr

/-- One iteration of the `while` loop (source lines 97–177): check the head
against `end_node`, otherwise pop it via swap-remove, process its
neighbours, re-sort, and detect exhaustion. -/
def astarStep (g : Graph T S) (end_node : T) (scores : Scores T S)
    (queue : List (QEntry T S)) : StepOut T S :=
  match queue with
  | [] => .halt .noPath
  | cur :: _ =>
    if cur.label = end_node then
      .halt (.path (cur.path ++ [end_node]))
    else
      match lookupNode g cur.label with
      | none => .halt .dataIntegrity
      | some (neighbours, _) =>
        match processNeighbours g cur neighbours scores (swapRemoveHead queue) with
        | none => .halt .dataIntegrity
        | some (scores', queue') =>
          let sorted := sortByScore queue'
          if sorted.isEmpty then .halt .noPath else .next scores' sorted

/-- The `while` loop on explicit fuel. -/
def astarLoop (g : Graph T S) (end_node : T) :
    Nat → Scores T S → List (QEntry T S) → AResult T
  | 0, _, _ => .fuelOut
  | fuel + 1, scores, queue =>
    match astarStep g end_node scores queue with
    | .halt r => r
    | .next scores' queue' => astarLoop g end_node fuel scores' queue'

/-- The public entry point `astar_path` (source lines 53–182): validate
start/end membership, seed the score table and queue with the start node,
then run the loop. -/
def astar_path (start_node : T) (nodes : Graph T S) (end_node : T)
    (fuel : Nat) : AResult T :=
  match lookupNode nodes start_node with
  | none => .invalidInput
  | some (_, start_weight) =>
    match lookupNode nodes end_node with
    | none => .invalidInput
    | some _ =>
      astarLoop nodes end_node fuel
        [(start_node, start_weight)]
        [⟨start_node, start_weight, [], 0⟩]

/-- Edge predicate read off the graph: `b` occurs in `a`'s edge list. -/
def hasEdge (g : Graph T S) (a b : T) : Bool :=
  match lookupNode g a with
  | some (es, _) => es.any fun p => decide (p.1 = b)
  | none => false

/-- Every consecutive pair of the list is an edge of `g`. -/
def validChain (g : Graph T S) : List T → Bool
  | [] => true
  | [_] => true
  | a :: b :: rest => hasEdge g a b && validChain g (b :: rest)

/-- Concrete graph with a zero-distance two-node cycle and an isolated
node `2`; no edge enters `2`, yet the search never exhausts its frontier. -/
def gCycle : Graph ℕ ℤ := [(0, ([(1, 0)], 0)), (1, ([(0, 0)], 0)), (2, ([], 0))]

/-- Concrete graph whose node `2` has an edge to the absent label `99`,
while `0 → 1` is a perfectly good path. -/
def gDangling : Graph ℕ ℤ := [(0, ([(1, 1)], 1)), (1, ([], 1)), (2, ([(99, 1)], 1))]

/-! ## Basic lemmas about the score table and the queue scan -/

theorem scoresGet_insert_self (sc : Scores T S) (n : T) (v : S) :
    scoresGet (scoresInsert sc n v) n = some v := by
  induction sc with
  | nil => simp [scoresInsert, scoresGet]
  | cons kv rest ih =>
    rcases kv with ⟨k1, v1⟩
    by_cases h : k1 = n
    · subst h
      simp [scoresInsert, scoresGet]
    · simp [scoresInsert, scoresGet, h, ih]

theorem scoresGet_insert_ne (sc : Scores T S) (n : T) (v : S) (k : T)
    (h : k ≠ n) : scoresGet (scoresInsert sc n v) k = scoresGet sc k := by
  have hnk : n ≠ k := fun hh => h hh.symm
  induction sc with
  | nil => simp [scoresInsert, scoresGet, hnk]
  | cons kv rest ih =>
    rcases kv with ⟨k1, v1⟩
    by_cases h1 : k1 = n
    · subst h1
      simp [scoresInsert, scoresGet, hnk]
    · by_cases h2 : k1 = k
      · subst h2
        simp [scoresInsert, scoresGet, h1]
      · simp [scoresInsert, scoresGet, h1, h2, ih]

theorem upsertScan_fst (queue : List (QEntry T S)) (n : T) (s : S)
    (p : List T) (d : S) :
    (upsertScan queue n s p d).1 =
      queue.map (fun x => if x.label = n ∧ s ≤ x.score then ⟨n, s, p, d⟩ else x) := by
  induction queue with
  | nil => rfl
  | cons q rest ih =>
    by_cases h : q.label = n ∧ s ≤ q.score
    · simp [upsertScan, h, ih]
    · simp [upsertScan, h, ih]

theorem upsertScan_snd_true_iff (queue : List (QEntry T S)) (n : T) (s : S)
    (p : List T) (d : S) :
    (upsertScan queue n s p d).2 = true ↔
      ∀ x ∈ queue, ¬(x.label = n ∧ s ≤ x.score) := by
  induction queue with
  | nil => simp [upsertScan]
  | cons q rest ih =>
    by_cases h : q.label = n ∧ s ≤ q.score
    · constructor
      · intro htrue
        simp [upsertScan, h] at htrue
      · intro hall
        exact absurd h (hall q (List.mem_cons_self q rest))
    · constructor
      · intro htrue x hx
        rcases List.mem_cons.mp hx with rfl | hx
        · exact h
        · have htail : (upsertScan rest n s p d).2 = true := by
            simpa [upsertScan, h] using htrue
          exact (ih.mp htail) x hx
      · intro hall
        have htail : (upsertScan rest n s p d).2 = true :=
          ih.mpr (fun x hx => hall x (List.mem_cons_of_mem q hx))
        simpa [upsertScan, h] using htail

theorem upsertScan_labels (queue : List (QEntry T S)) (n : T) (s : S)
    (p : List T) (d : S) :
    ((upsertScan queue n s p d).1).map QEntry.label = queue.map QEntry.label := by
  rw [upsertScan_fst, List.map_map]
  refine List.map_congr_left ?_
  intro x _
  by_cases h : x.label = n ∧ s ≤ x.score
  · simp [h, h.1]
  · simp [h]

theorem mem_upsertScan (queue : List (QEntry T S)) (n : T) (s : S)
    (p : List T) (d : S) (x : QEntry T S)
    (hx : x ∈ (upsertScan queue n s p d).1) :
    x ∈ queue ∨ x = ⟨n, s, p, d⟩ := by
  rw [upsertScan_fst] at hx
  rcases List.mem_map.mp hx with ⟨y, hy, hyx⟩
  by_cases h : y.label = n ∧ s ≤ y.score
  · rw [if_pos h] at hyx
    exact Or.inr hyx.symm
  · rw [if_neg h] at hyx
    exact Or.inl (hyx ▸ hy)

theorem mem_upsert_or_push (queue : List (QEntry T S)) (n : T) (s : S)
    (p : List T) (d : S) (x : QEntry T S)
    (hx : x ∈ upsert_or_push queue n s p d) :
    x ∈ queue ∨ x = ⟨n, s, p, d⟩ := by
  unfold upsert_or_push at hx
  by_cases h : (upsertScan queue n s p d).2
  · rw [if_pos h, List.mem_append] at hx
    rcases hx with hx | hx
    · exact mem_upsertScan queue n s p d x hx
    · exact Or.inr (List.mem_singleton.mp hx)
  · rw [if_neg h] at hx
    exact mem_upsertScan queue n s p d x hx

theorem new_mem_upsert_or_push (queue : List (QEntry T S)) (n : T) (s : S)
    (p : List T) (d : S) :
    (⟨n, s, p, d⟩ : QEntry T S) ∈ upsert_or_push queue n s p d := by
  unfold upsert_or_push
  by_cases h : (upsertScan queue n s p d).2
  · rw [if_pos h]
    simp
  · rw [if_neg h]
    have hex : ¬∀ x ∈ queue, ¬(x.label = n ∧ s ≤ x.score) := fun hall =>
      h ((upsertScan_snd_true_iff queue n s p d).mpr hall)
    push_neg at hex
    rcases hex with ⟨x, hxq, hc1, hc2⟩
    rw [upsertScan_fst]
    exact List.mem_map.mpr ⟨x, hxq, by rw [if_pos ⟨hc1, hc2⟩]⟩

/-! ## Sorting lemmas -/

theorem insertSorted_perm (e : QEntry T S) (l : List (QEntry T S)) :
    List.Perm (insertSorted e l) (e :: l) := by
  induction l with
  | nil => exact List.Perm.refl _
  | cons x xs ih =>
    by_cases h : x.score ≤ e.score
    · simp only [insertSorted, if_pos h]
      exact ((ih.cons x).trans (List.Perm.swap e x xs))
    · simp only [insertSorted, if_neg h]
      exact List.Perm.refl _

theorem sortByScore_perm_aux (l : List (QEntry T S)) :
    ∀ acc : List (QEntry T S),
      List.Perm (l.foldl (fun acc e => insertSorted e acc) acc) (acc ++ l) := by
  induction l with
  | nil => intro acc; simp
  | cons e rest ih =>
    intro acc
    have h1 := ih (insertSorted e acc)
    have h2 : List.Perm (insertSorted e acc ++ rest) ((e :: acc) ++ rest) :=
      (insertSorted_perm e acc).append_right rest
    have h3 : List.Perm ((e :: acc) ++ rest) (acc ++ e :: rest) :=
      List.perm_middle.symm
    exact (h1.trans h2).trans h3

theorem sortByScore_perm (queue : List (QEntry T S)) :
    List.Perm (sortByScore queue) queue := by
  simpa using sortByScore_perm_aux queue []

theorem mem_sortByScore (queue : List (QEntry T S)) (x : QEntry T S) :
    x ∈ sortByScore queue ↔ x ∈ queue :=
  (sortByScore_perm queue).mem_iff

theorem swapRemoveHead_perm (cur : QEntry T S) (rest : List (QEntry T S)) :
    List.Perm (swapRemoveHead (cur :: rest)) rest := by
  cases hrest : rest.getLast? with
  | none =>
    have : rest = [] := List.getLast?_eq_none_iff.mp hrest
    subst this
    simp [swapRemoveHead]
  | some l =>
    have hne : rest ≠ [] := by
      intro h
      subst h
      simp at hrest
    have hl : rest.getLast hne = l := by
      have h2 := List.getLast?_eq_getLast rest hne
      rw [h2] at hrest
      exact Option.some_inj.mp hrest
    have hdec : rest.dropLast ++ [l] = rest := by
      rw [← hl]
      exact List.dropLast_append_getLast hne
    have h1 : swapRemoveHead (cur :: rest) = l :: rest.dropLast := by
      simp [swapRemoveHead, hrest]
    rw [h1]
    have hperm : List.Perm (l :: rest.dropLast) (rest.dropLast ++ [l]) :=
      (List.perm_append_singleton l rest.dropLast).symm
    rw [hdec] at hperm
    exact hperm

/-! ## C5 and C6: boundary case and missing endpoints -/

/-- C5: for every graph containing an entry for the start label, if
`start = end` then `astar_path` returns the single-element path `[start]`
(the loop guard is satisfied immediately and path reconstruction appends
the end label to the empty path-so-far). -/
theorem c5_start_eq_end (s : T) (g : Graph T S) (es : Edges T S) (w : S)
    (hs : lookupNode g s = some (es, w)) (fuel : Nat) :
    astar_path s g s (fuel + 1) = AResult.path [s] := by
  simp [astar_path, hs, astarLoop, astarStep]

theorem c5_start_eq_end_witness :
    astar_path 0 [(0, (([] : Edges ℕ ℤ), (1 : ℤ)))] 0 1 = AResult.path [0] :=
  c5_start_eq_end 0 [(0, (([] : Edges ℕ ℤ), (1 : ℤ)))] [] 1 rfl 0

/-- C6: for every graph where the start label or the end label is absent
from the node mapping, `astar_path` fails immediately with the
InvalidInput panic (before any search step runs) and never returns a
path. -/
theorem c6_missing_endpoint_invalid_input (s e : T) (g : Graph T S)
    (fuel : Nat) (h : lookupNode g s = none ∨ lookupNode g e = none) :
    astar_path s g e fuel = AResult.invalidInput := by
  rcases h with h | h
  · simp [astar_path, h]
  · rcases hs : lookupNode g s with _ | ⟨es, w⟩
    · simp [astar_path, hs]
    · simp [astar_path, hs, h]

theorem c6_missing_endpoint_invalid_input_witness :
    astar_path 1 [(0, (([] : Edges ℕ ℤ), (1 : ℤ)))] 0 3 = AResult.invalidInput :=
  c6_missing_endpoint_invalid_input 1 0 _ 3 (Or.inl rfl)

/-! ## C2: the zero-distance cycle on which the search never terminates -/

/-- On `gCycle`, once the score table is `[(0,0),(1,0)]`, every iteration
just moves the single queue entry between labels `0` and `1` (the tie
`0 ≤ 0` re-accepts the candidate forever), so the loop consumes all fuel. -/
theorem cycleLoop_fuelOut : ∀ fuel : Nat,
    (∀ p : List ℕ,
      astarLoop gCycle 2 fuel [(0, 0), (1, 0)] [⟨0, 0, p, 0⟩] = AResult.fuelOut) ∧
    (∀ p : List ℕ,
      astarLoop gCycle 2 fuel [(0, 0), (1, 0)] [⟨1, 0, p, 0⟩] = AResult.fuelOut) := by
  intro fuel
  induction fuel with
  | zero => exact ⟨fun _ => rfl, fun _ => rfl⟩
  | succ fuel ih =>
    constructor
    · intro p
      have hstep : astarLoop gCycle 2 (fuel + 1) [(0, 0), (1, 0)] [⟨0, 0, p, 0⟩]
          = astarLoop gCycle 2 fuel [(0, 0), (1, 0)] [⟨1, 0, p ++ [0], 0⟩] := rfl
      rw [hstep]
      exact ih.2 (p ++ [0])
    · intro p
      have hstep : astarLoop gCycle 2 (fuel + 1) [(0, 0), (1, 0)] [⟨1, 0, p, 0⟩]
          = astarLoop gCycle 2 fuel [(0, 0), (1, 0)] [⟨0, 0, p ++ [1], 0⟩] := rfl
      rw [hstep]
      exact ih.1 (p ++ [1])

/-- C2: the claim fails on the code. In `gCycle` every edge distance is
non-negative, every referenced label is present, and no edge enters node
`2`, so no sequence of edges connects `0` to `2`; yet `astar_path`
never terminates (it exhausts any amount of fuel instead of returning
the no-path value), because the zero-distance tie `0 ≤ 0` re-accepts the
cycle's nodes forever. -/
theorem c2_zero_cycle_never_terminates :
    (∀ a : ℕ, hasEdge gCycle a 2 = false) ∧
    (∀ fuel : Nat, astar_path 0 gCycle 2 fuel = AResult.fuelOut) := by
  constructor
  · intro a
    by_cases h0 : a = 0
    · subst h0; decide
    · by_cases h1 : a = 1
      · subst h1; decide
      · by_cases h2 : a = 2
        · subst h2; decide
        · have hn0 : (0 : ℕ) ≠ a := fun h => h0 h.symm
          have hn1 : (1 : ℕ) ≠ a := fun h => h1 h.symm
          have hn2 : (2 : ℕ) ≠ a := fun h => h2 h.symm
          simp [hasEdge, gCycle, lookupNode, hn0, hn1, hn2]
  · intro fuel
    cases fuel with
    | zero => rfl
    | succ f =>
      have hstep : astar_path 0 gCycle 2 (f + 1)
          = astarLoop gCycle 2 f [(0, 0), (1, 0)] [⟨1, 0, [0], 0⟩] := rfl
      rw [hstep]
      exact (cycleLoop_fuelOut f).2 [0]

/-! ## C7: a dangling edge aborts the search only if it is processed -/

/-- C7 counterexample: `gDangling`'s node `2` references the absent label
`99`, yet the search from `0` to `1` returns a path (it never processes
node `2`), contradicting the claim that such a call always fails with
DataIntegrity and never returns a path. -/
theorem c7_counterexample :
    lookupNode gDangling 2 = some ([(99, 1)], 1) ∧
    lookupNode gDangling 99 = none ∧
    astar_path 0 gDangling 1 2 = AResult.path [0, 1] := by
  refine ⟨rfl, rfl, ?_⟩
  decide

/-- Processing a neighbour list that mentions a label absent from the
graph always aborts with the missing-neighbour panic. -/
theorem processNeighbours_missing (g : Graph T S) (cur : QEntry T S) (n : T)
    (d : S) :
    ∀ (es : Edges T S) (scores : Scores T S) (queue : List (QEntry T S)),
      (n, d) ∈ es → lookupNode g n = none →
      processNeighbours g cur es scores queue = none := by
  intro es
  induction es with
  | nil =>
    intro scores queue hmem _
    exact absurd hmem (List.not_mem_nil _)
  | cons nb rest ih =>
    intro scores queue hmem hn
    rcases List.mem_cons.mp hmem with heq | hmem'
    · rw [← heq]
      simp [processNeighbours, processNeighbour, hn]
    · cases hp : processNeighbour g cur scores queue nb with
      | none => simp [processNeighbours, hp]
      | some st =>
        rcases st with ⟨sc', q'⟩
        simp only [processNeighbours, hp]
        exact ih sc' q' hmem' hn

/-- C7 amended: a dangling edge aborts the call exactly when the search
processes it; in particular, when `start ≠ end` and the start node's own
edge list references a label absent from the mapping, the very first
iteration fails with the DataIntegrity panic and no path is returned. -/
theorem c7_processed_missing_neighbour_panics (s e : T) (g : Graph T S)
    (es ese : Edges T S) (w we : S) (n : T) (d : S)
    (hs : lookupNode g s = some (es, w)) (he : lookupNode g e = some (ese, we))
    (hne : s ≠ e) (hmem : (n, d) ∈ es) (hn : lookupNode g n = none)
    (fuel : Nat) :
    astar_path s g e (fuel + 1) = AResult.dataIntegrity := by
  have hentry : astar_path s g e (fuel + 1)
      = astarLoop g e (fuel + 1) [(s, w)] [⟨s, w, [], 0⟩] := by
    unfold astar_path
    rw [hs, he]
  rw [hentry]
  have hproc := processNeighbours_missing g ⟨s, w, [], 0⟩ n d es [(s, w)]
    (swapRemoveHead [⟨s, w, [], 0⟩]) hmem hn
  have hstep : astarStep g e [(s, w)] [⟨s, w, [], 0⟩]
      = StepOut.halt AResult.dataIntegrity := by
    simp only [astarStep]
    rw [if_neg hne]
    simp only [hs, hproc]
  simp only [astarLoop, hstep]

theorem c7_processed_missing_neighbour_panics_witness :
    astar_path 0 [(0, ([(99, 1)], (1 : ℤ))), (1, ([], 1))] 1 1
      = AResult.dataIntegrity := by
  apply c7_processed_missing_neighbour_panics 0 1
    [(0, ([(99, 1)], (1 : ℤ))), (1, ([], 1))] [(99, 1)] [] 1 1 99 1 <;> decide

/-! ## C4: the queue upsert, including the duplicate-appending branch -/

/-- When no scanned entry both matches the label and has score ≥ the
candidate's, the scan leaves the queue unchanged and reports that a fresh
entry is required. -/
theorem upsertScan_id (queue : List (QEntry T S)) (n : T) (s : S)
    (p : List T) (d : S)
    (hall : ∀ x ∈ queue, ¬(x.label = n ∧ s ≤ x.score)) :
    upsertScan queue n s p d = (queue, true) := by
  have hfst : (upsertScan queue n s p d).1 = queue := by
    rw [upsertScan_fst]
    have hcongr : ∀ x ∈ queue,
        (if x.label = n ∧ s ≤ x.score then (⟨n, s, p, d⟩ : QEntry T S) else x)
          = id x := by
      intro x hx
      rw [if_neg (hall x hx)]
      rfl
    rw [List.map_congr_left hcongr, List.map_id]
  have hsnd : (upsertScan queue n s p d).2 = true :=
    (upsertScan_snd_true_iff queue n s p d).mpr hall
  exact Prod.ext hfst hsnd

/-- C4 counterexample: the claim says a candidate whose only matching
queue entry has a strictly better score is dropped without modifying the
frontier; instead the code appends a duplicate entry for that label
(the scan finds no entry with score ≥ the candidate, so the
`new_queue_item_required_for_node` flag stays set and the push runs). -/
theorem c4_counterexample :
    (QEntry.label (⟨0, 1, [], 0⟩ : QEntry ℕ ℤ) = 0) ∧ ((1 : ℤ) < 2) ∧
    upsert_or_push [(⟨0, 1, [], 0⟩ : QEntry ℕ ℤ)] 0 2 [] 0
      = [⟨0, 1, [], 0⟩, ⟨0, 2, [], 0⟩] := by
  decide

/-- C4 amended: if the frontier has no entry for the label, the new entry
is appended; if the only matching entry has score ≥ the candidate's, that
entry is overwritten in place (score, path and distance) and nothing is
appended; if the only matching entry has a strictly better score, the
matching entry is kept unchanged and a duplicate new entry is appended
(the candidate is NOT dropped — though reachable searches never hit this
branch, see the C9 invariant). -/
theorem c4_upsert_or_push_cases (queue : List (QEntry T S)) (n : T) (s : S)
    (p : List T) (d : S) :
    ((∀ x ∈ queue, x.label ≠ n) →
        upsert_or_push queue n s p d = queue ++ [⟨n, s, p, d⟩]) ∧
    (∀ q1 (e : QEntry T S) q2, queue = q1 ++ e :: q2 → e.label = n →
        (∀ x ∈ q1, x.label ≠ n) → (∀ x ∈ q2, x.label ≠ n) →
        ((s ≤ e.score →
            upsert_or_push queue n s p d = q1 ++ ⟨n, s, p, d⟩ :: q2) ∧
         (e.score < s →
            upsert_or_push queue n s p d = queue ++ [⟨n, s, p, d⟩]))) := by
  constructor
  · intro hall
    have hid := upsertScan_id queue n s p d (fun x hx hc => hall x hx hc.1)
    unfold upsert_or_push
    rw [hid]
    simp
  · intro q1 e q2 hq hel h1 h2
    constructor
    · intro hle
      have hf : (upsertScan queue n s p d).2 = false := by
        cases hb : (upsertScan queue n s p d).2 with
        | false => rfl
        | true =>
          exact absurd ⟨hel, hle⟩
            (((upsertScan_snd_true_iff queue n s p d).mp hb) e
              (by rw [hq]; simp))
      have hfst : (upsertScan queue n s p d).1 = q1 ++ ⟨n, s, p, d⟩ :: q2 := by
        rw [upsertScan_fst, hq, List.map_append, List.map_cons]
        congr 1
        · have hcongr : ∀ x ∈ q1,
              (if x.label = n ∧ s ≤ x.score then (⟨n, s, p, d⟩ : QEntry T S) else x)
                = id x := by
            intro x hx
            rw [if_neg (fun hc => h1 x hx hc.1)]
            rfl
          rw [List.map_congr_left hcongr, List.map_id]
        · rw [if_pos ⟨hel, hle⟩]
          congr 1
          have hcongr : ∀ x ∈ q2,
              (if x.label = n ∧ s ≤ x.score then (⟨n, s, p, d⟩ : QEntry T S) else x)
                = id x := by
            intro x hx
            rw [if_neg (fun hc => h2 x hx hc.1)]
            rfl
          rw [List.map_congr_left hcongr, List.map_id]
      have hpair : upsertScan queue n s p d
          = (q1 ++ ⟨n, s, p, d⟩ :: q2, false) := Prod.ext hfst hf
      unfold upsert_or_push
      rw [hpair]
      simp
    · intro hlt
      have hall : ∀ x ∈ queue, ¬(x.label = n ∧ s ≤ x.score) := by
        intro x hx hc
        rw [hq] at hx
        rcases List.mem_append.mp hx with hx1 | hx2
        · exact h1 x hx1 hc.1
        · rcases List.mem_cons.mp hx2 with rfl | hx3
          · exact absurd hc.2 (not_le.mpr hlt)
          · exact h2 x hx3 hc.1
      have hid := upsertScan_id queue n s p d hall
      unfold upsert_or_push
      rw [hid]
      simp

theorem c4_upsert_or_push_cases_witness :
    upsert_or_push ([] : List (QEntry ℕ ℤ)) 0 2 [] 0 = [⟨0, 2, [], 0⟩] ∧
    upsert_or_push [(⟨0, 3, [7], 5⟩ : QEntry ℕ ℤ)] 0 2 [] 0 = [⟨0, 2, [], 0⟩] ∧
    upsert_or_push [(⟨0, 1, [7], 5⟩ : QEntry ℕ ℤ)] 0 2 [] 0
      = [⟨0, 1, [7], 5⟩, ⟨0, 2, [], 0⟩] := by
  refine ⟨?_, ?_, ?_⟩
  · exact (c4_upsert_or_push_cases [] 0 2 [] 0).1 (by simp)
  · have h := ((c4_upsert_or_push_cases [(⟨0, 3, [7], 5⟩ : QEntry ℕ ℤ)] 0 2 [] 0).2
      [] ⟨0, 3, [7], 5⟩ [] rfl rfl (by simp) (by simp)).1 (by norm_num)
    simpa using h
  · have h := ((c4_upsert_or_push_cases [(⟨0, 1, [7], 5⟩ : QEntry ℕ ℤ)] 0 2 [] 0).2
      [] ⟨0, 1, [7], 5⟩ [] rfl rfl (by simp) (by simp)).2 (by norm_num)
    simpa using h

/-! ## C3: the score-table check for one neighbour candidate -/

/-- C3: with candidate score `cand = a_star_score (cur.dist + d) w` for a
neighbour `(n, d)` of weight `w`: if the score table has no record for
`n`, or `cand` is less-than-or-equal to the recorded score (ties
included, displacing the earlier record), the table is updated so that
`n` now records `cand` (all other labels unchanged) and the candidate
entry is passed on to the frontier; otherwise the table and the frontier
are returned unchanged and the candidate is discarded. -/
theorem c3_record_if_better (g : Graph T S) (cur : QEntry T S)
    (sc : Scores T S) (queue : List (QEntry T S)) (n : T) (d : S)
    (nes : Edges T S) (w cand : S)
    (hn : lookupNode g n = some (nes, w))
    (hc : cand = a_star_score (cur.dist + d) w) :
    ((scoresGet sc n = none ∨ (∃ r, scoresGet sc n = some r ∧ cand ≤ r)) →
      ∃ q', processNeighbour g cur sc queue (n, d)
          = some (scoresInsert sc n cand, q')
        ∧ (⟨n, cand, cur.path ++ [cur.label], cur.dist + d⟩ : QEntry T S) ∈ q'
        ∧ scoresGet (scoresInsert sc n cand) n = some cand
        ∧ ∀ k, k ≠ n → scoresGet (scoresInsert sc n cand) k = scoresGet sc k) ∧
    (∀ r, scoresGet sc n = some r → r < cand →
      processNeighbour g cur sc queue (n, d) = some (sc, queue)) := by
  subst hc
  constructor
  · intro hacc
    rcases hacc with hnone | ⟨r, hr, hle⟩
    · refine ⟨queue ++ [⟨n, a_star_score (cur.dist + d) w,
        cur.path ++ [cur.label], cur.dist + d⟩], ?_, ?_, ?_, ?_⟩
      · simp [processNeighbour, hn, hnone]
      · simp
      · exact scoresGet_insert_self sc n _
      · intro k hk
        exact scoresGet_insert_ne sc n _ k hk
    · refine ⟨upsert_or_push queue n (a_star_score (cur.dist + d) w)
        (cur.path ++ [cur.label]) (cur.dist + d), ?_, ?_, ?_, ?_⟩
      · simp [processNeighbour, hn, hr, hle]
      · exact new_mem_upsert_or_push queue n _ _ _
      · exact scoresGet_insert_self sc n _
      · intro k hk
        exact scoresGet_insert_ne sc n _ k hk
  · intro r hr hlt
    simp [processNeighbour, hn, hr, not_le.mpr hlt]

theorem c3_record_if_better_witness :
    ∃ q', processNeighbour [(5, ([], (3 : ℤ)))] (⟨7, 0, [], 2⟩ : QEntry ℕ ℤ)
        [] [] (5, 4) = some ([(5, 9)], q')
      ∧ (⟨5, 9, [7], 6⟩ : QEntry ℕ ℤ) ∈ q' := by
  obtain ⟨q', h1, h2, _, _⟩ :=
    (c3_record_if_better ([(5, ([], (3 : ℤ)))] : Graph ℕ ℤ)
      (⟨7, 0, [], 2⟩ : QEntry ℕ ℤ) [] [] 5 4 [] 3 9
      rfl (by decide)).1 (Or.inl rfl)
  exact ⟨q', h1, h2⟩

/-! ## C8: determinism — the result depends only on the mapping -/

theorem processNeighbour_congr (g1 g2 : Graph T S)
    (h : ∀ k, lookupNode g1 k = lookupNode g2 k) (cur : QEntry T S)
    (sc : Scores T S) (queue : List (QEntry T S)) (nb : T × S) :
    processNeighbour g1 cur sc queue nb = processNeighbour g2 cur sc queue nb := by
  unfold processNeighbour
  rw [h nb.1]

theorem processNeighbours_congr (g1 g2 : Graph T S)
    (h : ∀ k, lookupNode g1 k = lookupNode g2 k) (cur : QEntry T S) :
    ∀ (es : Edges T S) (sc : Scores T S) (queue : List (QEntry T S)),
      processNeighbours g1 cur es sc queue = processNeighbours g2 cur es sc queue := by
  intro es
  induction es with
  | nil =>
    intro sc queue
    rfl
  | cons nb rest ih =>
    intro sc queue
    simp only [processNeighbours]
    rw [processNeighbour_congr g1 g2 h cur sc queue nb]
    cases processNeighbour g2 cur sc queue nb with
    | none => rfl
    | some st =>
      rcases st with ⟨sc', q'⟩
      exact ih sc' q'

theorem astarStep_congr (g1 g2 : Graph T S)
    (h : ∀ k, lookupNode g1 k = lookupNode g2 k) (e0 : T) (sc : Scores T S)
    (queue : List (QEntry T S)) :
    astarStep g1 e0 sc queue = astarStep g2 e0 sc queue := by
  cases queue with
  | nil => rfl
  | cons cur rest =>
    simp only [astarStep]
    by_cases hc : cur.label = e0
    · simp [hc]
    · rw [if_neg hc, if_neg hc]
      have hpn : processNeighbours g1 cur = processNeighbours g2 cur :=
        funext fun es => funext fun sc' => funext fun q =>
          processNeighbours_congr g1 g2 h cur es sc' q
      rw [h cur.label, hpn]

theorem astarLoop_congr (g1 g2 : Graph T S)
    (h : ∀ k, lookupNode g1 k = lookupNode g2 k) (e0 : T) :
    ∀ (fuel : Nat) (sc : Scores T S) (queue : List (QEntry T S)),
      astarLoop g1 e0 fuel sc queue = astarLoop g2 e0 fuel sc queue := by
  intro fuel
  induction fuel with
  | zero =>
    intro sc queue
    rfl
  | succ fuel ih =>
    intro sc queue
    simp only [astarLoop]
    rw [astarStep_congr g1 g2 h e0 sc queue]
    cases astarStep g2 e0 sc queue with
    | halt r => rfl
    | next sc' q' => exact ih sc' q'

/-- C8: `astar_path` is deterministic — it is a pure function of the
mapping represented by the `nodes` map (plus start, end and fuel): two
graphs whose lookups agree on every label (e.g. two iteration orders of
the same `HashMap` content) produce the identical result, the same path
or the same no-path value. -/
theorem c8_deterministic (s e0 : T) (g1 g2 : Graph T S) (fuel : Nat)
    (h : ∀ k, lookupNode g1 k = lookupNode g2 k) :
    astar_path s g1 e0 fuel = astar_path s g2 e0 fuel := by
  have hloop : astarLoop g1 e0 = astarLoop g2 e0 :=
    funext fun fu => funext fun sc => funext fun q =>
      astarLoop_congr g1 g2 h e0 fu sc q
  unfold astar_path
  rw [h s, h e0, hloop]

theorem c8_deterministic_witness :
    astar_path false [(false, ([(true, (1 : ℤ))], 2)), (true, ([], 3))] true 4
      = astar_path false [(true, ([], (3 : ℤ))), (false, ([(true, 1)], 2))] true 4 := by
  apply c8_deterministic false true
    [(false, ([(true, (1 : ℤ))], 2)), (true, ([], 3))]
    [(true, ([], (3 : ℤ))), (false, ([(true, 1)], 2))] 4
  decide

/-! ## C1: every returned path is a start-to-end edge chain -/

/-- Invariant of a queue entry: prefixing its path-so-far to its label
gives an edge chain of `g` that begins at the start label. -/
def entryFrom (g : Graph T S) (s : T) (x : QEntry T S) : Prop :=
  (x.path ++ [x.label]).head? = some s ∧ validChain g (x.path ++ [x.label]) = true

theorem hasEdge_of_lookup (g : Graph T S) (a : T) (es : Edges T S) (w : S)
    (n : T) (d : S) (hl : lookupNode g a = some (es, w)) (hmem : (n, d) ∈ es) :
    hasEdge g a n = true := by
  unfold hasEdge
  rw [hl]
  simp only [List.any_eq_true]
  exact ⟨(n, d), hmem, by simp⟩

theorem validChain_append (g : Graph T S) (b : T) :
    ∀ (xs : List T) (a : T), validChain g xs = true → xs.getLast? = some a →
      hasEdge g a b = true → validChain g (xs ++ [b]) = true := by
  intro xs
  induction xs with
  | nil =>
    intro a _ hlast _
    simp at hlast
  | cons x tail ih =>
    intro a hchain hlast hedge
    cases tail with
    | nil =>
      have hax : a = x := by simpa using hlast.symm
      subst hax
      simp [validChain, hedge]
    | cons y rest =>
      have hparts : hasEdge g x y = true ∧ validChain g (y :: rest) = true := by
        simpa [validChain, Bool.and_eq_true] using hchain
      have hlast' : (y :: rest).getLast? = some a := by
        simpa [List.getLast?_cons_cons] using hlast
      have hih := ih a hparts.2 hlast' hedge
      simp only [List.cons_append] at hih ⊢
      simp [validChain, hparts.1]
      simpa [validChain] using hih

theorem entryFrom_extend (g : Graph T S) (s : T) (cur : QEntry T S)
    (hcur : entryFrom g s cur) (n : T) (hedge : hasEdge g cur.label n = true)
    (sc d : S) :
    entryFrom g s ⟨n, sc, cur.path ++ [cur.label], d⟩ := by
  rcases hcur with ⟨hhead, hchain⟩
  constructor
  · show ((cur.path ++ [cur.label]) ++ [n]).head? = some s
    rw [List.head?_append]
    simp [hhead]
  · show validChain g ((cur.path ++ [cur.label]) ++ [n]) = true
    exact validChain_append g n (cur.path ++ [cur.label]) cur.label hchain
      (List.getLast?_concat _) hedge

theorem processNeighbour_entryFrom (g : Graph T S) (s : T) (cur : QEntry T S)
    (sc : Scores T S) (queue : List (QEntry T S)) (nb : T × S)
    (hedge : hasEdge g cur.label nb.1 = true)
    (hcur : entryFrom g s cur)
    (hq : ∀ x ∈ queue, entryFrom g s x)
    (sc' : Scores T S) (q' : List (QEntry T S))
    (h : processNeighbour g cur sc queue nb = some (sc', q')) :
    ∀ x ∈ q', entryFrom g s x := by
  rcases hlk : lookupNode g nb.1 with _ | ⟨nes, w⟩
  · simp [processNeighbour, hlk] at h
  · rcases hsg : scoresGet sc nb.1 with _ | r
    · simp only [processNeighbour, hlk, hsg, Option.some.injEq, Prod.mk.injEq] at h
      rcases h with ⟨h1, h2⟩
      subst h2
      intro x hx
      rcases List.mem_append.mp hx with hx1 | hx2
      · exact hq x hx1
      · rcases List.mem_singleton.mp hx2 with rfl
        exact entryFrom_extend g s cur hcur nb.1 hedge _ _
    · by_cases hle : a_star_score (cur.dist + nb.2) w ≤ r
      · simp only [processNeighbour, hlk, hsg, if_pos hle, Option.some.injEq,
          Prod.mk.injEq] at h
        rcases h with ⟨h1, h2⟩
        subst h2
        intro x hx
        rcases mem_upsert_or_push _ _ _ _ _ x hx with hx1 | hx2
        · exact hq x hx1
        · subst hx2
          exact entryFrom_extend g s cur hcur nb.1 hedge _ _
      · simp only [processNeighbour, hlk, hsg, if_neg hle, Option.some.injEq,
          Prod.mk.injEq] at h
        rcases h with ⟨h1, h2⟩
        subst h2
        exact hq

theorem processNeighbours_entryFrom (g : Graph T S) (s : T) (cur : QEntry T S) :
    ∀ (es : Edges T S) (sc : Scores T S) (queue : List (QEntry T S))
      (sc' : Scores T S) (q' : List (QEntry T S)),
      (∀ nb ∈ es, hasEdge g cur.label nb.1 = true) →
      entryFrom g s cur → (∀ x ∈ queue, entryFrom g s x) →
      processNeighbours g cur es sc queue = some (sc', q') →
      ∀ x ∈ q', entryFrom g s x := by
  intro es
  induction es with
  | nil =>
    intro sc queue sc' q' _ _ hq h
    simp only [processNeighbours, Option.some.injEq, Prod.mk.injEq] at h
    rcases h with ⟨h1, h2⟩
    subst h2
    exact hq
  | cons nb rest ih =>
    intro sc queue sc' q' hedges hcur hq h
    simp only [processNeighbours] at h
    rcases hp : processNeighbour g cur sc queue nb with _ | ⟨sc1, q1⟩
    · rw [hp] at h
      simp at h
    · rw [hp] at h
      have hq1 : ∀ x ∈ q1, entryFrom g s x :=
        processNeighbour_entryFrom g s cur sc queue nb
          (hedges nb (List.mem_cons_self nb rest)) hcur hq sc1 q1 hp
      exact ih sc1 q1 sc' q'
        (fun nb2 hnb2 => hedges nb2 (List.mem_cons_of_mem nb hnb2)) hcur hq1 h

/-- Inversion: the step halts with a found path only when the queue head
already carries the end label, and the result appends the end label to
that entry's path-so-far. -/
theorem astarStep_halt_path (g : Graph T S) (e0 : T) (sc : Scores T S)
    (queue : List (QEntry T S)) (p : List T)
    (h : astarStep g e0 sc queue = StepOut.halt (AResult.path p)) :
    ∃ cur rest, queue = cur :: rest ∧ cur.label = e0 ∧ p = cur.path ++ [e0] := by
  cases queue with
  | nil => simp [astarStep] at h
  | cons cur rest =>
    by_cases hc : cur.label = e0
    · refine ⟨cur, rest, rfl, hc, ?_⟩
      simp only [astarStep, if_pos hc, StepOut.halt.injEq, AResult.path.injEq] at h
      exact h.symm
    · exfalso
      simp only [astarStep, if_neg hc] at h
      rcases hlk : lookupNode g cur.label with _ | ⟨nes, w⟩
      · simp only [hlk] at h
        simp at h
      · simp only [hlk] at h
        rcases hpn : processNeighbours g cur nes sc (swapRemoveHead (cur :: rest))
            with _ | ⟨sc1, q1⟩
        · simp only [hpn] at h
          simp at h
        · simp only [hpn] at h
          by_cases hemp : (sortByScore q1).isEmpty = true
          · rw [if_pos hemp] at h
            simp at h
          · rw [if_neg hemp] at h
            simp at h

/-- Inversion: the step continues only by popping the head (which is not
the end label), processing its neighbours and re-sorting. -/
theorem astarStep_next (g : Graph T S) (e0 : T) (sc : Scores T S)
    (queue : List (QEntry T S)) (sc' : Scores T S) (q' : List (QEntry T S))
    (h : astarStep g e0 sc queue = StepOut.next sc' q') :
    ∃ cur rest nes w q1, queue = cur :: rest ∧ cur.label ≠ e0 ∧
      lookupNode g cur.label = some (nes, w) ∧
      processNeighbours g cur nes sc (swapRemoveHead queue) = some (sc', q1) ∧
      q' = sortByScore q1 := by
  cases queue with
  | nil => simp [astarStep] at h
  | cons cur rest =>
    by_cases hc : cur.label = e0
    · simp [astarStep, hc] at h
    · simp only [astarStep, if_neg hc] at h
      rcases hlk : lookupNode g cur.label with _ | ⟨nes, w⟩
      · simp only [hlk] at h
        simp at h
      · simp only [hlk] at h
        rcases hpn : processNeighbours g cur nes sc (swapRemoveHead (cur :: rest))
            with _ | ⟨sc1, q1⟩
        · simp only [hpn] at h
          simp at h
        · simp only [hpn] at h
          by_cases hemp : (sortByScore q1).isEmpty = true
          · rw [if_pos hemp] at h
            simp at h
          · rw [if_neg hemp] at h
            injection h with ha hb
            exact ⟨cur, rest, nes, w, q1, rfl, hc, hlk,
              by rw [ha] at hpn; exact hpn, hb.symm⟩

theorem astarLoop_path_valid (g : Graph T S) (s e0 : T) :
    ∀ (fuel : Nat) (sc : Scores T S) (queue : List (QEntry T S)) (p : List T),
      (∀ x ∈ queue, entryFrom g s x) →
      astarLoop g e0 fuel sc queue = AResult.path p →
      p.head? = some s ∧ p.getLast? = some e0 ∧ validChain g p = true := by
  intro fuel
  induction fuel with
  | zero =>
    intro sc queue p _ h
    simp [astarLoop] at h
  | succ fuel ih =>
    intro sc queue p hq h
    simp only [astarLoop] at h
    rcases hst : astarStep g e0 sc queue with ⟨r⟩ | ⟨sc', q'⟩
    · rw [hst] at h
      have hr : r = AResult.path p := h
      subst hr
      obtain ⟨cur, rest, hqe, hlab, hp⟩ := astarStep_halt_path g e0 sc queue p hst
      subst hqe
      have hcur := hq cur (List.mem_cons_self cur rest)
      rcases hcur with ⟨hhead, hchain⟩
      rw [hlab] at hhead hchain
      subst hp
      exact ⟨hhead, List.getLast?_concat _, hchain⟩
    · rw [hst] at h
      obtain ⟨cur, rest, nes, w, q1, hqe, hlab, hlk, hpn, hsort⟩ :=
        astarStep_next g e0 sc queue sc' q' hst
      have hq' : ∀ x ∈ q', entryFrom g s x := by
        subst hsort
        intro x hx
        have hx1 := (mem_sortByScore q1 x).mp hx
        have hpop : ∀ y ∈ swapRemoveHead queue, entryFrom g s y := by
          intro y hy
          subst hqe
          have := (swapRemoveHead_perm cur rest).mem_iff.mp hy
          exact hq y (List.mem_cons_of_mem cur this)
        have hcur : entryFrom g s cur := by
          subst hqe
          exact hq cur (List.mem_cons_self cur rest)
        exact processNeighbours_entryFrom g s cur nes sc (swapRemoveHead queue)
          sc' q1
          (fun nb hnb => hasEdge_of_lookup g cur.label nes w nb.1 nb.2 hlk
            (by rcases nb with ⟨n1, d1⟩; exact hnb))
          hcur hpop hpn x hx1
      exact ih sc' q' p hq' h

/-- C1: for every graph containing entries for start and end, whenever
`astar_path` returns a path, that path starts with the start label, ends
with the end label, and every consecutive pair of labels in it is an
edge present in the graph's edge lists. -/
theorem c1_returned_path_valid (s e0 : T) (g : Graph T S)
    (es ese : Edges T S) (w we : S) (fuel : Nat) (p : List T)
    (hs : lookupNode g s = some (es, w)) (he : lookupNode g e0 = some (ese, we))
    (h : astar_path s g e0 fuel = AResult.path p) :
    p.head? = some s ∧ p.getLast? = some e0 ∧ validChain g p = true := by
  unfold astar_path at h
  rw [hs, he] at h
  refine astarLoop_path_valid g s e0 fuel _ _ p ?_ h
  intro x hx
  rcases List.mem_singleton.mp hx with rfl
  exact ⟨by simp, by simp [validChain]⟩

theorem c1_returned_path_valid_witness :
    ([0, 1] : List ℕ).head? = some 0 ∧ ([0, 1] : List ℕ).getLast? = some 1 ∧
    validChain gDangling [0, 1] = true :=
  c1_returned_path_valid 0 1 gDangling [(1, 1)] [] 1 1 2 [0, 1] rfl rfl
    (by decide)

/-! ## C9: the frontier invariant at every re-sort point -/

/-- The frontier holds at most one entry per label. -/
def labelsNodup (queue : List (QEntry T S)) : Prop :=
  (queue.map QEntry.label).Nodup

/-- Every queued entry's stored score is exactly the score table's
record for its label. -/
def scoresMatch (sc : Scores T S) (queue : List (QEntry T S)) : Prop :=
  ∀ x ∈ queue, scoresGet sc x.label = some x.score

/-- Whenever a candidate passed the score-table check (its score is ≤
the recorded score) and the frontier holds an entry for its label, the
queue scan reports that no fresh queue item is required — so the branch
pushing a duplicate entry for an already-queued label is not taken. -/
def dupPushAvoided (sc : Scores T S) (queue : List (QEntry T S)) : Prop :=
  ∀ (n : T) (s : S) (p : List T) (d : S) (r : S),
    (∃ x ∈ queue, x.label = n) → scoresGet sc n = some r → s ≤ r →
    (upsertScan queue n s p d).2 = false

/-- Iterating the loop body: the state after `n` completed iterations
(each ending at the re-sort point), `none` once the loop has halted. -/
def stepN (g : Graph T S) (e0 : T) :
    Nat → Scores T S × List (QEntry T S) → Option (Scores T S × List (QEntry T S))
  | 0, st => some st
  | n + 1, st =>
    match astarStep g e0 st.1 st.2 with
    | .halt _ => none
    | .next sc q => stepN g e0 n (sc, q)

theorem dupPushAvoided_of_scoresMatch (sc : Scores T S)
    (queue : List (QEntry T S)) (hsm : scoresMatch sc queue) :
    dupPushAvoided sc queue := by
  intro n s p d r hex hrec hle
  rcases hex with ⟨x, hxq, hxl⟩
  have hx := hsm x hxq
  rw [hxl, hrec] at hx
  have hxe : r = x.score := Option.some_inj.mp hx
  cases hb : (upsertScan queue n s p d).2 with
  | false => rfl
  | true =>
    exact absurd ⟨hxl, hxe ▸ hle⟩
      ((upsertScan_snd_true_iff queue n s p d).mp hb x hxq)

/-- Appending a fresh entry for a label not yet in the queue preserves
the frontier invariant once the table records its score. -/
theorem stateOk_append (sc : Scores T S) (queue : List (QEntry T S)) (n : T)
    (v : S) (p : List T) (d : S)
    (hnd : labelsNodup queue) (hsm : scoresMatch sc queue)
    (hno : ∀ x ∈ queue, x.label ≠ n) :
    labelsNodup (queue ++ [⟨n, v, p, d⟩]) ∧
    scoresMatch (scoresInsert sc n v) (queue ++ [⟨n, v, p, d⟩]) := by
  constructor
  · unfold labelsNodup at hnd ⊢
    rw [List.map_append, List.nodup_append]
    refine ⟨hnd, by simp, ?_⟩
    intro a ha hb
    simp at hb
    rcases List.mem_map.mp ha with ⟨x, hxq, hxl⟩
    exact hno x hxq (by rw [hxl, hb])
  · intro x hx
    rcases List.mem_append.mp hx with hx1 | hx2
    · rw [scoresGet_insert_ne sc n v x.label (hno x hx1)]
      exact hsm x hx1
    · rcases List.mem_singleton.mp hx2 with rfl
      exact scoresGet_insert_self sc n v

/-- Overwriting the (unique, by score-match necessarily dominated)
matching entry preserves the frontier invariant. -/
theorem stateOk_overwrite (sc : Scores T S) (queue : List (QEntry T S))
    (n : T) (v : S) (p : List T) (d : S) (r : S)
    (hnd : labelsNodup queue) (hsm : scoresMatch sc queue)
    (hrec : scoresGet sc n = some r) (hle : v ≤ r)
    (hmatch : ∃ x ∈ queue, x.label = n) :
    labelsNodup (upsert_or_push queue n v p d) ∧
    scoresMatch (scoresInsert sc n v) (upsert_or_push queue n v p d) := by
  have hflag : (upsertScan queue n v p d).2 = false := by
    rcases hmatch with ⟨x, hxq, hxl⟩
    have hx := hsm x hxq
    rw [hxl, hrec] at hx
    have hxr : r = x.score := Option.some_inj.mp hx
    cases hb : (upsertScan queue n v p d).2 with
    | false => rfl
    | true =>
      exact absurd ⟨hxl, hxr ▸ hle⟩
        ((upsertScan_snd_true_iff queue n v p d).mp hb x hxq)
  have hq' : upsert_or_push queue n v p d = (upsertScan queue n v p d).1 := by
    unfold upsert_or_push
    simp [hflag]
  constructor
  · unfold labelsNodup
    rw [hq', upsertScan_labels]
    exact hnd
  · intro x hx
    rw [hq', upsertScan_fst] at hx
    rcases List.mem_map.mp hx with ⟨y, hyq, hyx⟩
    by_cases hcond : y.label = n ∧ v ≤ y.score
    · rw [if_pos hcond] at hyx
      rw [← hyx]
      exact scoresGet_insert_self sc n v
    · rw [if_neg hcond] at hyx
      have hyne : y.label ≠ n := by
        intro hyl
        apply hcond
        have hy := hsm y hyq
        rw [hyl, hrec] at hy
        exact ⟨hyl, (Option.some_inj.mp hy) ▸ hle⟩
      rw [← hyx, scoresGet_insert_ne sc n v y.label hyne]
      exact hsm y hyq

theorem processNeighbour_stateOk (g : Graph T S) (cur : QEntry T S)
    (sc : Scores T S) (queue : List (QEntry T S)) (nb : T × S)
    (sc' : Scores T S) (q' : List (QEntry T S))
    (hnd : labelsNodup queue) (hsm : scoresMatch sc queue)
    (h : processNeighbour g cur sc queue nb = some (sc', q')) :
    labelsNodup q' ∧ scoresMatch sc' q' := by
  rcases hlk : lookupNode g nb.1 with _ | ⟨nes, w⟩
  · simp [processNeighbour, hlk] at h
  · rcases hsg : scoresGet sc nb.1 with _ | r
    · simp only [processNeighbour, hlk, hsg, Option.some.injEq,
        Prod.mk.injEq] at h
      rcases h with ⟨h1, h2⟩
      subst h1 h2
      have hno : ∀ x ∈ queue, x.label ≠ nb.1 := by
        intro x hxq hxl
        have hx := hsm x hxq
        rw [hxl, hsg] at hx
        exact Option.noConfusion hx
      exact stateOk_append sc queue nb.1 _ _ _ hnd hsm hno
    · by_cases hle : a_star_score (cur.dist + nb.2) w ≤ r
      · simp only [processNeighbour, hlk, hsg, if_pos hle, Option.some.injEq,
          Prod.mk.injEq] at h
        rcases h with ⟨h1, h2⟩
        subst h1 h2
        by_cases hmatch : ∃ x ∈ queue, x.label = nb.1
        · exact stateOk_overwrite sc queue nb.1 _ _ _ r hnd hsm hsg hle hmatch
        · push_neg at hmatch
          have hid := upsertScan_id queue nb.1 (a_star_score (cur.dist + nb.2) w)
            (cur.path ++ [cur.label]) (cur.dist + nb.2)
            (fun x hx hc => hmatch x hx hc.1)
          have hq' : upsert_or_push queue nb.1 (a_star_score (cur.dist + nb.2) w)
              (cur.path ++ [cur.label]) (cur.dist + nb.2)
              = queue ++ [⟨nb.1, a_star_score (cur.dist + nb.2) w,
                  cur.path ++ [cur.label], cur.dist + nb.2⟩] := by
            unfold upsert_or_push
            rw [hid]
            simp
          rw [hq']
          exact stateOk_append sc queue nb.1 _ _ _ hnd hsm hmatch
      · simp only [processNeighbour, hlk, hsg, if_neg hle, Option.some.injEq,
          Prod.mk.injEq] at h
        rcases h with ⟨h1, h2⟩
        subst h1 h2
        exact ⟨hnd, hsm⟩

theorem processNeighbours_stateOk (g : Graph T S) (cur : QEntry T S) :
    ∀ (es : Edges T S) (sc : Scores T S) (queue : List (QEntry T S))
      (sc' : Scores T S) (q' : List (QEntry T S)),
      labelsNodup queue → scoresMatch sc queue →
      processNeighbours g cur es sc queue = some (sc', q') →
      labelsNodup q' ∧ scoresMatch sc' q' := by
  intro es
  induction es with
  | nil =>
    intro sc queue sc' q' hnd hsm h
    simp only [processNeighbours, Option.some.injEq, Prod.mk.injEq] at h
    rcases h with ⟨h1, h2⟩
    subst h1 h2
    exact ⟨hnd, hsm⟩
  | cons nb rest ih =>
    intro sc queue sc' q' hnd hsm h
    simp only [processNeighbours] at h
    rcases hp : processNeighbour g cur sc queue nb with _ | ⟨sc1, q1⟩
    · rw [hp] at h
      simp at h
    · rw [hp] at h
      have hok := processNeighbour_stateOk g cur sc queue nb sc1 q1 hnd hsm hp
      exact ih sc1 q1 sc' q' hok.1 hok.2 h

theorem swapRemoveHead_stateOk (sc : Scores T S) (cur : QEntry T S)
    (rest : List (QEntry T S))
    (hnd : labelsNodup (cur :: rest)) (hsm : scoresMatch sc (cur :: rest)) :
    labelsNodup (swapRemoveHead (cur :: rest)) ∧
    scoresMatch sc (swapRemoveHead (cur :: rest)) := by
  have hperm := swapRemoveHead_perm (S := S) cur rest
  constructor
  · unfold labelsNodup at hnd ⊢
    have hrest : (rest.map QEntry.label).Nodup := by
      rw [List.map_cons] at hnd
      exact hnd.of_cons
    have hmap := hperm.map QEntry.label
    exact hmap.nodup_iff.mpr hrest
  · intro x hx
    exact hsm x (List.mem_cons_of_mem cur (hperm.mem_iff.mp hx))

theorem astarStep_stateOk (g : Graph T S) (e0 : T) (sc : Scores T S)
    (queue : List (QEntry T S)) (sc' : Scores T S) (q' : List (QEntry T S))
    (hnd : labelsNodup queue) (hsm : scoresMatch sc queue)
    (h : astarStep g e0 sc queue = StepOut.next sc' q') :
    labelsNodup q' ∧ scoresMatch sc' q' := by
  obtain ⟨cur, rest, nes, w, q1, hqe, hlab, hlk, hpn, hsort⟩ :=
    astarStep_next g e0 sc queue sc' q' h
  subst hqe
  have hpop := swapRemoveHead_stateOk sc cur rest hnd hsm
  have hq1 := processNeighbours_stateOk g cur nes sc (swapRemoveHead (cur :: rest))
    sc' q1 hpop.1 hpop.2 hpn
  subst hsort
  constructor
  · unfold labelsNodup
    have hperm := (sortByScore_perm q1).map QEntry.label
    exact hperm.nodup_iff.mpr hq1.1
  · intro x hx
    exact hq1.2 x ((mem_sortByScore q1 x).mp hx)

theorem stepN_stateOk (g : Graph T S) (e0 : T) :
    ∀ (n : Nat) (sc0 : Scores T S) (q0 : List (QEntry T S))
      (sc : Scores T S) (qu : List (QEntry T S)),
      labelsNodup q0 → scoresMatch sc0 q0 →
      stepN g e0 n (sc0, q0) = some (sc, qu) →
      labelsNodup qu ∧ scoresMatch sc qu := by
  intro n
  induction n with
  | zero =>
    intro sc0 q0 sc qu hnd hsm h
    simp only [stepN, Option.some.injEq, Prod.mk.injEq] at h
    rcases h with ⟨h1, h2⟩
    subst h1 h2
    exact ⟨hnd, hsm⟩
  | succ n ih =>
    intro sc0 q0 sc qu hnd hsm h
    simp only [stepN] at h
    rcases hst : astarStep g e0 sc0 q0 with ⟨r⟩ | ⟨sc1, q1⟩
    · rw [hst] at h
      simp at h
    · rw [hst] at h
      have hok := astarStep_stateOk g e0 sc0 q0 sc1 q1 hnd hsm hst
      exact ih sc1 q1 sc qu hok.1 hok.2 h

/-- C9: starting from the seeded state that `astar_path` builds, every
state at a re-sort point (reached by completed loop iterations) has a
frontier with at most one entry per label whose stored scores all equal
the score table's records; consequently a candidate that passed the
score-table check while its label is queued always overwrites in place
and the duplicate-push branch is never taken. -/
theorem c9_frontier_invariant (g : Graph T S) (e0 s : T) (es : Edges T S)
    (w : S) (hs : lookupNode g s = some (es, w)) (n : Nat)
    (sc : Scores T S) (qu : List (QEntry T S))
    (h : stepN g e0 n ([(s, w)], [⟨s, w, [], 0⟩]) = some (sc, qu)) :
    labelsNodup qu ∧ scoresMatch sc qu ∧ dupPushAvoided sc qu := by
  have hinit_nd : labelsNodup [(⟨s, w, [], 0⟩ : QEntry T S)] := by
    simp [labelsNodup]
  have hinit_sm : scoresMatch [(s, w)] [(⟨s, w, [], 0⟩ : QEntry T S)] := by
    intro x hx
    rcases List.mem_singleton.mp hx with rfl
    simp [scoresGet]
  obtain ⟨h1, h2⟩ := stepN_stateOk g e0 n [(s, w)] [⟨s, w, [], 0⟩] sc qu
    hinit_nd hinit_sm h
  exact ⟨h1, h2, dupPushAvoided_of_scoresMatch sc qu h2⟩

theorem c9_frontier_invariant_witness :
    labelsNodup [(⟨1, 2, [0], 1⟩ : QEntry ℕ ℤ)] ∧
    scoresMatch [(0, 1), (1, 2)] [(⟨1, 2, [0], 1⟩ : QEntry ℕ ℤ)] ∧
    dupPushAvoided [(0, 1), (1, 2)] [(⟨1, 2, [0], 1⟩ : QEntry ℕ ℤ)] :=
  c9_frontier_invariant ([(0, ([(1, 1)], (1 : ℤ))), (1, ([], 1))] : Graph ℕ ℤ)
    1 0 [(1, 1)] 1 rfl 1 [(0, 1), (1, 2)] [⟨1, 2, [0], 1⟩] (by decide)

end AStar
